import Mathlib

set_option autoImplicit false
set_option maxRecDepth 4000

/-!
Shallow embedding of the resume-ingestion core of the ATS repository:
the resume structurer, the streaming-insight accumulator, the upload text
extractor, and the application-review database operations, together with
proofs settling the frozen claims about them.

Strings are embedded as Lean `String` (a list of Unicode scalar values);
the JavaScript regular expressions used by `structureResume` are embedded
as explicit backtracking matchers over `List Char`, specialised to the
exact patterns appearing in the source.
-/

/-- Embedding of the JavaScript regex class `\s` (and of the whitespace
set used by `String.prototype.trim`): ASCII whitespace, NBSP, BOM, and
the Unicode space separators. -/
def isJsSpace (c : Char) : Bool :=
  c == ' ' || c == '\t' || c == '\n' || c == '\r' ||
  c == '\u000B' || c == '\u000C' || c == '\u00A0' || c == '\u1680' ||
  (decide ('\u2000' ≤ c) && decide (c ≤ '\u200A')) ||
  c == '\u2028' || c == '\u2029' || c == '\u202F' ||
  c == '\u205F' || c == '\u3000' || c == '\uFEFF'

/-- Embedding of the regex character class `[:\s]` used right after each
section heading in `structureResume`. -/
def isSectChar (c : Char) : Bool := c == ':' || isJsSpace c

/-- List-level embedding of `String.prototype.trim`: drop `\s` characters
from both ends. -/
def jsTrimList (l : List Char) : List Char :=
  ((l.dropWhile isJsSpace).reverse.dropWhile isJsSpace).reverse

/-- Embedding of `String.prototype.trim`. -/
def jsTrim (s : String) : String := String.mk (jsTrimList s.data)

/-- Case-insensitive character comparison, embedding the `i` flag of the
source regexes (all heading words are ASCII). -/
def lowerEq (a b : Char) : Bool := a.toLower == b.toLower

/-- Case-insensitively strip the word `w` from the front of `s`,
returning the remainder; `none` if `w` is not a prefix of `s`. This is
the matcher for one literal alternative of a heading alternation. -/
def ciStrip : List Char → List Char → Option (List Char)
  | [], s => some s
  | _ :: _, [] => none
  | a :: w, c :: s => if lowerEq a c then ciStrip w s else none

/-- Case-insensitive prefix test. -/
def ciStartsWith (w s : List Char) : Bool := (ciStrip w s).isSome

/-- Matcher for the part of the lookahead after its leading `\n`:
`\s*(?:B1|B2|...|$)`. Because no boundary word starts with whitespace,
the backtracking `\s*` can only succeed at the end of the maximal
whitespace run (for a word) or by consuming a whitespace-only remainder
(for `$`). -/
def laBody (bs : List (List Char)) (t : List Char) : Bool :=
  let u := t.dropWhile isJsSpace
  u.isEmpty || bs.any (fun b => ciStartsWith b u)

/-- Matcher for the lookahead `(?=\n\s*(?:B1|...|$))` of the section
regexes, applied at a given suffix of the subject. -/
def laAt (bs : List (List Char)) : List Char → Bool
  | [] => false
  | c :: t => c == '\n' && laBody bs t

/-- The lazy group `(.*?)` (with the `s` flag, `.` matches every
character) followed by the lookahead: expand the capture one character
at a time until the lookahead holds; `none` when it holds at no suffix. -/
def lazyCapture (bs : List (List Char)) : List Char → Option (List Char)
  | [] => if laAt bs [] then some [] else none
  | c :: t =>
    if laAt bs (c :: t) then some []
    else (lazyCapture bs t).map (fun cap => c :: cap)

/-- Backtracking of the greedy `[:\s]*` after the lazy group has failed
at every later position: give characters back one at a time (positions
`k-1, k-2, ..., 0` inside the run) and retry the lookahead with an empty
capture. -/
def sectRunBacktrack (bs : List (List Char)) (s : List Char) : Nat → Option (List Char)
  | 0 => none
  | k + 1 => if laAt bs (s.drop k) then some [] else sectRunBacktrack bs s k

/-- Matcher for `[:\s]*(.*?)(?=\n\s*(?:B|$))` at a fixed position, the
heading word having already been consumed: take the maximal `[:\s]` run,
run the lazy capture, and on failure backtrack into the run. -/
def matchAfterHeading (bs : List (List Char)) (s : List Char) : Option (List Char) :=
  let k := (s.takeWhile isSectChar).length
  match lazyCapture bs (s.drop k) with
  | some cap => some cap
  | none => sectRunBacktrack bs s k

/-- Try the heading alternatives `(?:H1|H2|...)` in order at one
position, each followed by the rest of the pattern. -/
def tryHeadingsAt : List (List Char) → List (List Char) → List Char → Option (List Char)
  | [], _, _ => none
  | h :: hs, bs, s =>
    match (ciStrip h s).bind (matchAfterHeading bs) with
    | some cap => some cap
    | none => tryHeadingsAt hs bs s

/-- Leftmost-match search of `String.prototype.match` (no `g` flag): try
the whole pattern at each start position from the left; the first
position at which it succeeds yields the capture. -/
def sectionSearch (hs bs : List (List Char)) : List Char → Option (List Char)
  | [] => tryHeadingsAt hs bs []
  | c :: t =>
    match tryHeadingsAt hs bs (c :: t) with
    | some cap => some cap
    | none => sectionSearch hs bs t

/-- Heading alternatives of the summary regex in `structureResume`. -/
def summaryHeads : List String := ["Summary", "Profile", "About", "Objective"]

/-- Boundary alternatives of the summary regex lookahead. -/
def summaryBounds : List String :=
  ["Skills", "Experience", "Education", "Work", "Employment", "Certifications", "Contact"]

/-- Heading alternatives of the skills regex. -/
def skillsHeads : List String := ["Skills", "Expertise", "Competencies", "Technical Skills"]

/-- Boundary alternatives of the skills regex lookahead. -/
def skillsBounds : List String :=
  ["Experience", "Education", "Work", "Employment", "Certifications", "Contact"]

/-- Heading alternatives of the experience regex. -/
def expHeads : List String := ["Experience", "Work Experience", "Employment"]

/-- Boundary alternatives of the experience regex lookahead. -/
def expBounds : List String := ["Education", "Skills", "Certifications", "Contact"]

/-- Heading alternatives of the education regex. -/
def eduHeads : List String := ["Education", "Academic Background", "Qualifications"]

/-- Boundary alternatives of the education regex lookahead. -/
def eduBounds : List String := ["Experience", "Skills", "Certifications", "Contact"]

/-- Run one section regex of `structureResume` against the resume text,
returning the first capture group of the first match, if any. -/
def sectionMatch (hs bs : List String) (s : String) : Option (List Char) :=
  sectionSearch (hs.map String.data) (bs.map String.data) s.data

/-- Embedding of the split class in
`.split(/[,â€¢|\n]/)` of the skills extraction. The source file holds
the UTF-8 bytes C3 A2, E2 82 AC, C2 A2 between the comma and the pipe,
i.e. the three characters U+00E2, U+20AC, U+00A2 (a twice-encoded bullet
point), so the class is exactly these six characters. -/
def isSkillSep (c : Char) : Bool :=
  c == ',' || c == 'â' || c == '€' || c == '¢' || c == '|' || c == '\n'

/-- Split a character list at every separator character, keeping empty
pieces, as `String.prototype.split` does with a character-class regex. -/
def splitOnPred (p : Char → Bool) : List Char → List (List Char)
  | [] => [[]]
  | c :: t =>
    if p c then [] :: splitOnPred p t
    else
      match splitOnPred p t with
      | [] => [[c]]
      | x :: xs => (c :: x) :: xs

/-- The month alternatives of the entry-boundary lookahead
`(?=\d{4}|Jan|Feb|...|Dec)`. -/
def monthAbbrevs : List String :=
  ["Jan", "Feb", "Mar", "Apr", "May", "Jun", "Jul", "Aug", "Sep", "Oct", "Nov", "Dec"]

/-- The lookahead `(?=\d{4}|Jan|...|Dec)` (case-insensitive) of the
experience/education entry separator: four digits or a month
abbreviation at this position. -/
def entryLookahead (u : List Char) : Bool :=
  (match u with
   | a :: b :: c :: d :: _ => a.isDigit && b.isDigit && c.isDigit && d.isDigit
   | _ => false)
  || (monthAbbrevs.map String.data).any (fun m => ciStartsWith m u)

/-- Backtracking of the greedy `\s*` inside the entry separator
`\n\s*(?=...)`: try giving back the run from its maximal length `k` down
to zero until the lookahead holds, returning the remainder after the
separator. -/
def entrySepBack (t : List Char) : Nat → Option (List Char)
  | 0 => if entryLookahead t then some t else none
  | k + 1 =>
    if entryLookahead (t.drop (k + 1)) then some (t.drop (k + 1))
    else entrySepBack t k

/-- Match the entry separator `\n\s*(?=\d{4}|Jan|...)` at the start of
`s`, returning the remainder after the consumed separator. -/
def entrySepAt : List Char → Option (List Char)
  | [] => none
  | c :: t =>
    if c == '\n' then entrySepBack t (t.takeWhile isJsSpace).length
    else none

/-- Worker for `splitEntries`, with fuel so that the recursion is
structural (each step consumes at least one character, so fuel equal to
the length of the input never runs out; the fuel-exhausted branch is
unreachable). -/
def splitEntriesGo : Nat → List Char → List (List Char)
  | _, [] => [[]]
  | 0, rest => [rest]
  | fuel + 1, c :: t =>
    match entrySepAt (c :: t) with
    | some rest => [] :: splitEntriesGo fuel rest
    | none =>
      match splitEntriesGo fuel t with
      | [] => [[c]]
      | x :: xs => (c :: x) :: xs

/-- Embedding of `.split(/\n\s*(?=\d{4}|Jan|...|Dec)/i)` used to cut the
captured experience/education span into entries: scan left to right for
the leftmost separator match, cut there, drop the consumed separator and
continue after it. -/
def splitEntries (l : List Char) : List (List Char) := splitEntriesGo l.length l

/-- The `StructuredResume` shape produced by `structureResume` in the
source: every section present (empty when not found), `rawText` only set
by the top-level catch branch. The source's `contact` object is a
string-to-string mapping, embedded as an association list. -/
structure StructuredResume where
  summary : String
  skills : List String
  experience : List String
  education : List String
  certifications : List String
  contact : List (String × String)
  rawText : Option String
deriving DecidableEq, Repr

/-- Skills post-processing of `structureResume`: split the captured span
on the separator class, trim every token, keep tokens of positive
length. -/
def processSkills (cap : List Char) : List String :=
  (((splitOnPred isSkillSep cap).map jsTrimList).filter
      (fun t => decide (0 < t.length))).map (fun t => String.mk t)

/-- Experience/education post-processing of `structureResume`: split the
captured span at entry boundaries, trim every entry, keep entries whose
length exceeds 10. -/
def processEntries (cap : List Char) : List String :=
  (((splitEntries cap).map jsTrimList).filter
      (fun t => decide (10 < t.length))).map (fun t => String.mk t)

/-- The summary block of `structureResume`: the capture of the summary
regex, trimmed; the guard `summaryMatch && summaryMatch[1]` leaves the
field empty when the match fails or captures the empty string. -/
def extractSummary (t : String) : String :=
  match sectionMatch summaryHeads summaryBounds t with
  | some cap => if cap.isEmpty then "" else String.mk (jsTrimList cap)
  | none => ""

/-- The skills block of `structureResume`. -/
def extractSkills (t : String) : List String :=
  match sectionMatch skillsHeads skillsBounds t with
  | some cap => if cap.isEmpty then [] else processSkills cap
  | none => []

/-- The experience block of `structureResume`. -/
def extractExperience (t : String) : List String :=
  match sectionMatch expHeads expBounds t with
  | some cap => if cap.isEmpty then [] else processEntries cap
  | none => []

/-- The education block of `structureResume`. -/
def extractEducation (t : String) : List String :=
  match sectionMatch eduHeads eduBounds t with
  | some cap => if cap.isEmpty then [] else processEntries cap
  | none => []

/-- Embedding of `structureResume` from the candidate-insights page.
The body of the source function is total — regex matching, splitting,
trimming and filtering cannot raise — so the try block always completes
and this definition is the whole function; the catch branch is
`structureResumeFallback` below and is unreachable. The `certifications`
and `contact` sections are initialised empty and never filled by the
source. -/
def structureResume (resumeText : String) : StructuredResume :=
  { summary := extractSummary resumeText
    skills := extractSkills resumeText
    experience := extractExperience resumeText
    education := extractEducation resumeText
    certifications := []
    contact := []
    rawText := none }

/-- The catch branch of `structureResume`: on an internal error the
source returns the all-empty structure with `rawText` set to the
original input. -/
def structureResumeFallback (resumeText : String) : StructuredResume :=
  { summary := ""
    skills := []
    experience := []
    education := []
    certifications := []
    contact := []
    rawText := some resumeText }

/-!
Streaming insight accumulation (`analyzeResume` on the candidate-insights
page). The local language-model endpoint streams chunks; each chunk is
split into lines, blank lines are dropped, and each remaining line is
parsed as JSON; the `response` payload of a parseable line is appended to
the output buffer, a line that fails to parse is skipped with a logged
warning. `JSON.parse` composed with the `.response` projection is an
external runtime service, embedded as the `parse` parameter: `some p`
when the line parses and carries payload `p`, `none` when parsing throws.
-/

/-- One iteration of the `lines.forEach` body of `analyzeResume`:
append the payload on a successful parse, keep the buffer unchanged on a
parse failure. -/
def processLine (parse : String → Option String) (acc line : String) : String :=
  match parse line with
  | some payload => acc ++ payload
  | none => acc

/-- Processing of one decoded chunk in `analyzeResume`:
`chunk.split(and then newline).filter(line => line.trim())` followed by the
per-line append loop over the running buffer. -/
def processChunk (parse : String → Option String) (acc chunk : String) : String :=
  (((chunk.split (fun c => c == '\n')).filter
      (fun line => decide (jsTrim line ≠ ""))).foldl (processLine parse) acc)

/-- The read loop of `analyzeResume`: starting from the empty buffer,
process every arriving chunk in order until the transport closes. -/
def analyzeResume (parse : String → Option String) (chunks : List String) : String :=
  chunks.foldl (processChunk parse) ""

/-- Concatenation of a list of strings in order (the reference value the
accumulated buffer is compared against). -/
def concatStrings : List String → String
  | [] => ""
  | s :: rest => s ++ concatStrings rest

/-- The non-blank lines of the arriving chunks, in arrival order. -/
def streamLines (chunks : List String) : List String :=
  (chunks.map (fun chunk =>
    (chunk.split (fun c => c == '\n')).filter
      (fun line => decide (jsTrim line ≠ "")))).flatten

/-!
Resume text extraction (`handleResumeUpload` on the job-details page).
The uploaded file is embedded as its declared media type plus its
content; `FileReader.readAsText` returns the content, and the
word-processor conversion `mammoth.extractRawText` is an external
library, embedded as the `mammothExtract` parameter.
-/

/-- The declared media type of an upload, as dispatched on by
`handleResumeUpload`: `text/plain`, the two word-processor types, and
everything else. -/
inductive UploadFileType
  | textPlain
  | wordDocx
  | msword
  | other
deriving DecidableEq, Repr

/-- Embedding of `handleResumeUpload`: plain text is decoded directly,
word-processor documents go through the structured-document conversion,
any other type falls back to reading the raw bytes as text; a resulting
text that trims to empty raises the extraction error. -/
def handleResumeUpload (mammothExtract : String → String)
    (fileType : UploadFileType) (content : String) : Except String String :=
  let resumeText :=
    match fileType with
    | .textPlain => content
    | .wordDocx => mammothExtract content
    | .msword => mammothExtract content
    | .other => content
  if jsTrim resumeText = "" then .error "Could not extract text from the file"
  else .ok resumeText

/-!
Application review screen data operations. The backend rows touched by
the review pages are embedded as the `Application` record of
`ReviewApplications.tsx`; the backend itself is a list of rows, and each
`supabase.update` is a map over the rows filtered by id.
-/

/-- The `AIReview` shape persisted onto an application. -/
structure AIReview where
  match_score : Int
  matching_keywords : List String
  missing_keywords : List String
  usp : List String
  analysis : String
  recommendation : String
deriving DecidableEq, Repr

/-- The `Application` row shape of `ReviewApplications.tsx`:
`match_score` and `ai_review` are optional, absent until an analysis has
been persisted. -/
structure Application where
  id : String
  candidate_name : String
  candidate_email : String
  resume : String
  coverletter : String
  status : String
  match_score : Option Int
  ai_review : Option AIReview
deriving DecidableEq, Repr

/-- The outbound requests the review pages can issue, as observed by the
embedding: a bare status update, the persist-analysis update of the
View-Analysis handler, and the call to the AI analysis service. -/
inductive OutboundRequest
  | updateStatusReq (id status : String)
  | persistReviewReq (id : String) (review : AIReview)
  | analyzeReq (id : String)
deriving DecidableEq, Repr

/-- Overwrite the status field of a row. -/
def setStatus (status : String) (r : Application) : Application :=
  { r with status := status }

/-- Embedding of `supabase.from(applications).update(values).eq(id, x)`
for a bare status write: every row whose id matches gets the new status,
every other row is untouched. -/
def dbUpdateStatus (db : List Application) (id status : String) : List Application :=
  db.map (fun r => if r.id = id then setStatus status r else r)

/-- Embedding of `updateStatus` from the candidate-insights page (both
copies are identical): write the requested status for the given
application id, with no precondition on the stored row. -/
def updateStatus (db : List Application) (id : String)
    (status : String) : List Application :=
  dbUpdateStatus db id status

/-- Embedding of `reviewSingleApplication` from `ReviewApplications.tsx`:
issue one status update marking the application as `reviewing`; the
backend outcome for this application id is injected through `fail`; the
internal try/catch reports the per-application outcome as a toast and
never rethrows. Returns the backend state, the per-application report,
and the request that was issued. -/
def reviewSingleApplication (fail : String → Bool) (db : List Application)
    (app : Application) : List Application × (String × Bool) × OutboundRequest :=
  if fail app.id then
    (db, (app.id, false), .updateStatusReq app.id "reviewing")
  else
    (dbUpdateStatus db app.id "reviewing", (app.id, true),
      .updateStatusReq app.id "reviewing")

/-- Embedding of `reviewAllApplications`: run `reviewSingleApplication`
for every application. The source issues the requests through
`Promise.all`; each request touches only its own row and each outcome is
swallowed by the per-application catch, so the joint effect equals the
in-order composition modelled here. Returns the final backend state, the
per-application reports in order, and the issued requests in order. -/
def reviewAllApplications (fail : String → Bool) (db : List Application) :
    List Application → List Application × List (String × Bool) × List OutboundRequest
  | [] => (db, [], [])
  | app :: rest =>
    let one := reviewSingleApplication fail db app
    let more := reviewAllApplications fail one.1 rest
    (more.1, one.2.1 :: more.2.1, one.2.2 :: more.2.2)

/-- Embedding of the View-Analysis click handler of
`ReviewApplications.tsx`: call the analysis service for the application,
then persist `ai_review`, `match_score` and the `reviewing` status onto
the matching row. Returns the backend state and the issued requests. -/
def viewAnalysisPersist (db : List Application) (id : String)
    (review : AIReview) : List Application × List OutboundRequest :=
  (db.map (fun r =>
      if r.id = id then
        { r with ai_review := some review, match_score := some review.match_score,
                 status := "reviewing" }
      else r),
   [.analyzeReq id, .persistReviewReq id review])

/-- The analysis-request input assembled by the View-Analysis handler. -/
structure AnalyzeInput where
  jobTitle : String
  jobDescription : String
  requirements : String
  candidateName : String
  resume : String
  coverLetter : String
deriving DecidableEq, Repr

/-- Modelled from the spec: `analyzeResume` of `src/services/aiService`
is imported by `ReviewApplications.tsx` but its file is not in the
sources; the spec describes the hosted inference endpoint as returning
an `AIReview` object whose `match_score` is a number 0 to 100. The
underlying endpoint response is the `raw` argument; the model constrains
its score into the documented range. -/
def aiServiceAnalyzeResume (raw : AIReview) (_input : AnalyzeInput) : AIReview :=
  { raw with match_score := max 0 (min 100 raw.match_score) }

/-- Modelled from the spec: `matchResumeWithJD` of `src/lib/huggingface`
is imported by the review screen in `App.tsx` but its file is not in the
sources; the spec describes the match score as a 0 to 100 numeric
estimate that may be absent. -/
def specMatchScore (raw : Option Int) : Option Int :=
  raw.map (fun s => max 0 (min 100 s))

/-- The `parsed_resumes` row written by `handleParseResume` in the
review screen of `App.tsx`, reduced to the fields the claim is about. -/
structure ParsedResumeRow where
  application_id : String
  match_score : Int
deriving DecidableEq, Repr

/-- Embedding of the persisting step of `handleParseResume`: the row it
inserts carries `match_score: matchResult.score || 0`, i.e. the score of
the match result with 0 substituted when the score is absent. -/
def handleParseResume (score : Option Int) (applicationId : String) : ParsedResumeRow :=
  { application_id := applicationId, match_score := score.getD 0 }

/-- The application row inserted by a candidate submission (job-details
page): status `pending`, and no `match_score` or `ai_review` value. -/
def submitApplication (id name email resumeText cover : String) : Application :=
  { id := id, candidate_name := name, candidate_email := email,
    resume := resumeText, coverletter := cover, status := "pending",
    match_score := none, ai_review := none }

/-- The controls the application-review screen in `App.tsx` renders for
one application row. -/
inductive ReviewControl
  | selectButton
  | rejectButton
  | selectedBadge
  | rejectedBadge
deriving DecidableEq, Repr

/-- Embedding of the status-dependent part of the application-review
render in `App.tsx`: the Select/Reject buttons are rendered exactly when
the status is `pending`, and a terminal status renders only its badge. -/
def applicationControls (status : String) : List ReviewControl :=
  (if status = "pending" then [.selectButton, .rejectButton] else []) ++
  (if status = "selected" then [.selectedBadge] else []) ++
  (if status = "rejected" then [.rejectedBadge] else [])

/-- Concrete application row used by the concrete batch runs below. -/
def sampleApp (i : String) : Application :=
  { id := i, candidate_name := "cand" ++ i, candidate_email := i ++ "@mail",
    resume := "resume", coverletter := "", status := "pending",
    match_score := none, ai_review := none }

/-- A three-application backend for the batch counterexample. -/
def batchDb : List Application := [sampleApp "1", sampleApp "2", sampleApp "3"]

/-- Failure injection for the batch counterexample: the request for
application 2 fails, the others succeed. -/
def failSecond : String → Bool := fun i => i == "2"

/-- The reference tokenization of the claims about skills: the
comma-separated tokens of a list, each trimmed, empty tokens dropped,
order preserved. -/
def commaTokens (s : String) : List String :=
  ((splitOnPred (fun c => c == ',') s.data).map
      (fun t => String.mk (jsTrimList t))).filter (fun tok => decide (tok ≠ ""))

/-- An application already in the terminal `selected` status. -/
def terminalApp : Application := { sampleApp "7" with status := "selected" }

/-- A concrete raw endpoint response with an out-of-range score, used to
exercise the range constraint. -/
def rawReviewSample : AIReview :=
  { match_score := 250, matching_keywords := ["go"], missing_keywords := ["rust"],
    usp := ["fast"], analysis := "solid", recommendation := "hire" }

/-- A concrete analysis-request input. -/
def analyzeInputSample : AnalyzeInput :=
  { jobTitle := "Engineer", jobDescription := "Build things",
    requirements := "Go", candidateName := "cand1",
    resume := "resume", coverLetter := "" }

/-! Theorems. General lemmas first, then one theorem per claim (with its
witness or counterexample where required). -/

theorem concatStrings_append (a b : List String) :
    concatStrings (a ++ b) = concatStrings a ++ concatStrings b := by
  induction a with
  | nil => simp [concatStrings]
  | cons s a ih => simp [concatStrings, ih, String.append_assoc]

theorem foldl_processLine (parse : String → Option String) (lines : List String)
    (acc : String) :
    lines.foldl (processLine parse) acc = acc ++ concatStrings (lines.filterMap parse) := by
  induction lines generalizing acc with
  | nil => simp [concatStrings]
  | cons l ls ih =>
    cases h : parse l with
    | none => simp [List.foldl_cons, List.filterMap_cons, processLine, h, ih]
    | some payload =>
      simp [List.foldl_cons, List.filterMap_cons, processLine, h, ih,
        concatStrings, String.append_assoc]

/-- C2: for any stream of chunks arriving in order, the final
accumulated insight buffer of `analyzeResume` equals the concatenation,
in arrival order, of the payloads of exactly those (non-blank) lines the
JSON parse accepts; a line the parse rejects contributes nothing and
neither reorders nor aborts the later lines. -/
theorem stream_accumulation (parse : String → Option String) (chunks : List String) :
    analyzeResume parse chunks = concatStrings ((streamLines chunks).filterMap parse) := by
  suffices h : ∀ acc, chunks.foldl (processChunk parse) acc =
      acc ++ concatStrings ((streamLines chunks).filterMap parse) by
    simpa [analyzeResume] using h ""
  intro acc
  induction chunks generalizing acc with
  | nil => simp [streamLines, concatStrings]
  | cons ch chs ih =>
    simp only [List.foldl_cons, streamLines, List.map_cons, List.flatten_cons,
      List.filterMap_append, concatStrings_append]
    rw [ih, processChunk, foldl_processLine, String.append_assoc]
    rfl

/-- C7 counterexample: a plain-text upload whose content is whitespace
only fails with the extraction error instead of round-tripping its
content. -/
theorem extract_roundtrip_cex :
    handleResumeUpload id UploadFileType.textPlain "   " =
      Except.error "Could not extract text from the file" ∧
    handleResumeUpload id UploadFileType.textPlain "   " ≠ Except.ok "   " := by
  have h : handleResumeUpload id UploadFileType.textPlain "   " =
      Except.error "Could not extract text from the file" := by rfl
  exact ⟨h, by rw [h]; exact fun hc => Except.noConfusion hc⟩

/-- C7 (amended): for every plain-text upload whose content does not
trim to the empty string, the extractor returns the content unchanged
(round-trip identity on non-blank plain-text files). -/
theorem extract_roundtrip (mammothExtract : String → String) (S : String)
    (h : jsTrim S ≠ "") :
    handleResumeUpload mammothExtract UploadFileType.textPlain S = Except.ok S := by
  simp [handleResumeUpload, h]

/-- Witness for C7 at a concrete non-blank upload. -/
theorem extract_roundtrip_wit :
    handleResumeUpload id UploadFileType.textPlain "hello" = Except.ok "hello" :=
  extract_roundtrip id "hello" (by decide)

/-- C8: the application-review screen renders the Select/Reject controls
for no application in a terminal (`selected` or `rejected`) status, and
whenever either control is rendered the application is in a non-terminal
status. -/
theorem terminal_no_controls (status : String) :
    ((status = "selected" ∨ status = "rejected") →
      ReviewControl.selectButton ∉ applicationControls status ∧
      ReviewControl.rejectButton ∉ applicationControls status) ∧
    ((ReviewControl.selectButton ∈ applicationControls status ∨
      ReviewControl.rejectButton ∈ applicationControls status) →
      status ≠ "selected" ∧ status ≠ "rejected") := by
  constructor
  · rintro (rfl | rfl) <;> exact ⟨by decide, by decide⟩
  · intro hmem
    constructor
    · rintro rfl
      rcases hmem with hm | hm <;> revert hm <;> decide
    · rintro rfl
      rcases hmem with hm | hm <;> revert hm <;> decide

/-- Witness for C8 at the terminal status `selected`. -/
theorem terminal_no_controls_wit :
    ReviewControl.selectButton ∉ applicationControls "selected" ∧
    ReviewControl.rejectButton ∉ applicationControls "selected" :=
  (terminal_no_controls "selected").1 (Or.inl rfl)

/-- C10 (implicit): the status-update operation writes the requested
terminal status for the given application id with no precondition on the
stored row — in particular the row it overwrites may itself already
carry a terminal status, so a `selected` to `rejected` transition is
permitted at the operation level. -/
theorem update_status_unconditional (db : List Application) (id newStatus : String)
    (r : Application) (hr : r ∈ db) :
    (r.id = id → setStatus newStatus r ∈ updateStatus db id newStatus) ∧
    (r.id ≠ id → r ∈ updateStatus db id newStatus) := by
  constructor
  · intro hid
    have h := List.mem_map_of_mem
      (fun x => if x.id = id then setStatus newStatus x else x) hr
    simpa [updateStatus, dbUpdateStatus, hid] using h
  · intro hid
    have h := List.mem_map_of_mem
      (fun x => if x.id = id then setStatus newStatus x else x) hr
    simpa [updateStatus, dbUpdateStatus, hid] using h

/-- Witness for C10: an application already `selected` is overwritten to
`rejected` by the operation. -/
theorem update_status_unconditional_wit :
    setStatus "rejected" terminalApp ∈ updateStatus [terminalApp] "7" "rejected" :=
  (update_status_unconditional [terminalApp] "7" "rejected" terminalApp
    (by simp)).1 (by decide)

theorem setStatus_id (st : String) (r : Application) : (setStatus st r).id = r.id := rfl

theorem setStatus_setStatus (st : String) (r : Application) :
    setStatus st (setStatus st r) = setStatus st r := rfl

/-- C3 counterexample: in the concrete batch run over three applications
in which the request for application 2 fails, applications 1 and 3 have
their requests succeed — yet the batch issues only bare `reviewing`
status updates, no analysis request, and no application receives or
persists an `AIReview` (every `ai_review` stays absent). -/
theorem review_all_cex :
    ((reviewAllApplications failSecond batchDb batchDb).1.map
        (fun r => (r.id, r.status, r.ai_review))) =
      [("1", "reviewing", none), ("2", "pending", none), ("3", "reviewing", none)] ∧
    (reviewAllApplications failSecond batchDb batchDb).2.2 =
      [.updateStatusReq "1" "reviewing", .updateStatusReq "2" "reviewing",
        .updateStatusReq "3" "reviewing"] ∧
    (reviewAllApplications failSecond batchDb batchDb).2.1 =
      [("1", true), ("2", false), ("3", true)] := by
  refine ⟨by decide, by decide, by decide⟩

/-- C3 (amended): the batch review-all operation issues one independent
status-update request (marking the application `reviewing`) per
application, in order; each outcome is reported per application, a
failure of one request neither prevents nor alters the effect of the
others (the final backend state updates exactly the rows whose own
request succeeded), and no Match/Insight request is issued nor any
`AIReview` persisted by this path. -/
theorem review_all_isolated (fail : String → Bool) (db apps : List Application) :
    (reviewAllApplications fail db apps).2.1 = apps.map (fun a => (a.id, !fail a.id)) ∧
    (reviewAllApplications fail db apps).2.2 =
      apps.map (fun a => OutboundRequest.updateStatusReq a.id "reviewing") ∧
    (reviewAllApplications fail db apps).1 =
      db.map (fun r =>
        if apps.any (fun a => a.id == r.id && !fail a.id) then setStatus "reviewing" r
        else r) := by
  induction apps generalizing db with
  | nil =>
    refine ⟨rfl, rfl, ?_⟩
    simp [reviewAllApplications]
  | cons a as ih =>
    obtain ⟨ih1, ih2, ih3⟩ := ih (reviewSingleApplication fail db a).1
    refine ⟨?_, ?_, ?_⟩
    · simp only [reviewAllApplications, ih1]
      by_cases hf : fail a.id <;> simp [reviewSingleApplication, hf]
    · simp only [reviewAllApplications, ih2]
      by_cases hf : fail a.id <;> simp [reviewSingleApplication, hf]
    · simp only [reviewAllApplications, ih3]
      by_cases hf : fail a.id
      · have hstep : (reviewSingleApplication fail db a).1 = db := by
          simp [reviewSingleApplication, hf]
        rw [hstep]
        apply List.map_congr_left
        intro r _
        simp [List.any_cons, hf]
      · have hstep : (reviewSingleApplication fail db a).1 =
            dbUpdateStatus db a.id "reviewing" := by
          simp [reviewSingleApplication, hf]
        rw [hstep, dbUpdateStatus, List.map_map]
        apply List.map_congr_left
        intro r _
        show (fun r => if (as.any fun a => a.id == r.id && !fail a.id) = true
            then setStatus "reviewing" r else r)
          (if r.id = a.id then setStatus "reviewing" r else r) =
          if ((a :: as).any fun a => a.id == r.id && !fail a.id) = true
            then setStatus "reviewing" r else r
        by_cases hid : r.id = a.id
        · simp [hid, setStatus_setStatus, List.any_cons, beq_iff_eq, hf, setStatus_id]
        · have hne : a.id ≠ r.id := fun h => hid h.symm
          simp [hid, List.any_cons, beq_iff_eq, hne, hf]

theorem aiServiceAnalyzeResume_range (raw : AIReview) (input : AnalyzeInput) :
    0 ≤ (aiServiceAnalyzeResume raw input).match_score ∧
    (aiServiceAnalyzeResume raw input).match_score ≤ 100 := by
  simp only [aiServiceAnalyzeResume]
  omega

/-- C9: every operation that writes `match_score` keeps it inside
[0,100] — persisting a produced `AIReview` onto an application preserves
the invariant over the whole backend state, a bare status update never
touches any `match_score`, and the `parsed_resumes` row written by
`handleParseResume` carries an in-range score — while a freshly
submitted application carries no `match_score` at all, so absence (not
yet analyzed) is distinct from a computed zero. -/
theorem match_score_range (db : List Application) (id : String) (raw : AIReview)
    (input : AnalyzeInput) (st : String) (rawScore : Option Int)
    (appId idn name email rtext cover : String)
    (hdb : ∀ r ∈ db, ∀ s ∈ r.match_score, 0 ≤ s ∧ s ≤ 100) :
    (∀ r ∈ (viewAnalysisPersist db id (aiServiceAnalyzeResume raw input)).1,
        ∀ s ∈ r.match_score, 0 ≤ s ∧ s ≤ 100) ∧
    ((updateStatus db id st).map (fun r => r.match_score) =
        db.map (fun r => r.match_score)) ∧
    (0 ≤ (handleParseResume (specMatchScore rawScore) appId).match_score ∧
        (handleParseResume (specMatchScore rawScore) appId).match_score ≤ 100) ∧
    (submitApplication idn name email rtext cover).match_score = none := by
  refine ⟨?_, ?_, ?_, rfl⟩
  · intro r hr s hs
    simp only [viewAnalysisPersist, List.mem_map] at hr
    obtain ⟨r0, hr0, rfl⟩ := hr
    by_cases h : r0.id = id
    · simp only [h, if_pos] at hs
      simp only [Option.mem_def, Option.some.injEq] at hs
      subst hs
      exact aiServiceAnalyzeResume_range raw input
    · simp only [h, if_neg, not_false_iff] at hs
      exact hdb r0 hr0 s hs
  · simp only [updateStatus, dbUpdateStatus, List.map_map]
    apply List.map_congr_left
    intro r _
    show (if r.id = id then setStatus st r else r).match_score = r.match_score
    by_cases h : r.id = id <;> simp [h, setStatus]
  · cases rawScore with
    | none =>
      show (0 : Int) ≤ 0 ∧ (0 : Int) ≤ 100
      omega
    | some s =>
      show 0 ≤ max 0 (min 100 s) ∧ max 0 (min 100 s) ≤ 100
      omega

/-- Witness for C9 at a concrete backend, an out-of-range raw endpoint
score (clamped to 100 by the modelled service), and an absent
hugging-face score (substituted by 0). -/
theorem match_score_range_wit :
    (∀ r ∈ (viewAnalysisPersist batchDb "1"
        (aiServiceAnalyzeResume rawReviewSample analyzeInputSample)).1,
        ∀ s ∈ r.match_score, 0 ≤ s ∧ s ≤ 100) ∧
    ((updateStatus batchDb "1" "reviewing").map (fun r => r.match_score) =
        batchDb.map (fun r => r.match_score)) ∧
    (0 ≤ (handleParseResume (specMatchScore none) "1").match_score ∧
        (handleParseResume (specMatchScore none) "1").match_score ≤ 100) ∧
    (submitApplication "9" "n" "e" "r" "c").match_score = none :=
  match_score_range batchDb "1" rawReviewSample analyzeInputSample "reviewing" none
    "1" "9" "n" "e" "r" "c"
    (by intro r hr s hs; fin_cases hr <;> simp [batchDb, sampleApp] at hs)

/-- C4: the structurer is total — the body of `structureResume` cannot
raise, so the catch branch (`structureResumeFallback`, which would carry
the original input in `rawText`) is never taken: the normal result has
`rawText` absent, the never-filled sections are empty, and every section
whose pattern finds no match defaults to empty rather than being absent. -/
theorem structurer_defaults (t : String) :
    (structureResume t).rawText = none ∧
    (structureResume t).certifications = [] ∧
    (structureResume t).contact = [] ∧
    (structureResumeFallback t).rawText = some t ∧
    (sectionMatch summaryHeads summaryBounds t = none →
      (structureResume t).summary = "") ∧
    (sectionMatch skillsHeads skillsBounds t = none →
      (structureResume t).skills = []) ∧
    (sectionMatch expHeads expBounds t = none →
      (structureResume t).experience = []) ∧
    (sectionMatch eduHeads eduBounds t = none →
      (structureResume t).education = []) := by
  refine ⟨rfl, rfl, rfl, rfl, ?_, ?_, ?_, ?_⟩ <;> intro h
  · show extractSummary t = ""
    simp [extractSummary, h]
  · show extractSkills t = []
    simp [extractSkills, h]
  · show extractExperience t = []
    simp [extractExperience, h]
  · show extractEducation t = []
    simp [extractEducation, h]

/-- Witness for C4 at a text with no recognizable headings: no section
pattern matches and all sections default to empty. -/
theorem structurer_defaults_wit :
    (structureResume "hello world").rawText = none ∧
    (structureResume "hello world").summary = "" ∧
    (structureResume "hello world").skills = [] ∧
    (structureResume "hello world").experience = [] ∧
    (structureResume "hello world").education = [] := by
  obtain ⟨h1, -, -, -, h5, h6, h7, h8⟩ := structurer_defaults "hello world"
  exact ⟨h1, h5 (by decide), h6 (by decide), h7 (by decide), h8 (by decide)⟩

theorem laAt_nil (bs : List (List Char)) : laAt bs [] = false := rfl

theorem laAt_cons_ne (bs : List (List Char)) {c : Char} (t : List Char)
    (h : c ≠ '\n') : laAt bs (c :: t) = false := by
  simp [laAt, h]

theorem laAt_newline (bs : List (List Char)) (t : List Char) :
    laAt bs ('\n' :: t) = laBody bs t := by
  simp [laAt]

theorem lazyCapture_of_laAt {bs : List (List Char)} {s : List Char}
    (h : laAt bs s = true) : lazyCapture bs s = some [] := by
  cases s with
  | nil => simp [laAt] at h
  | cons c t => simp [lazyCapture, h]

theorem lazyCapture_append {bs : List (List Char)} (B : List Char) {tail : List Char}
    (hB : ∀ i, i < B.length → laAt bs (B.drop i ++ tail) = false)
    (ht : laAt bs tail = true) :
    lazyCapture bs (B ++ tail) = some B := by
  induction B with
  | nil => simpa using lazyCapture_of_laAt ht
  | cons c B ih =>
    have h0 : laAt bs (c :: (B ++ tail)) = false := by
      simpa using hB 0 (by simp)
    have ih' := ih (fun i hi => by
      simpa [List.drop_succ_cons] using hB (i + 1) (by simpa using Nat.succ_lt_succ hi))
    simp [lazyCapture, h0, ih']

theorem takeWhile_append_all {p : Char → Bool} {ws : List Char} (rest : List Char)
    (hws : ∀ c ∈ ws, p c = true)
    (hr : (rest.head?.all fun c => !p c) = true) :
    (ws ++ rest).takeWhile p = ws := by
  induction ws with
  | nil =>
    cases rest with
    | nil => rfl
    | cons b t =>
      simp only [List.head?_cons, Option.all_some, Bool.not_eq_true'] at hr
      simp [List.takeWhile_cons, hr]
  | cons a ws ih =>
    simp [List.takeWhile_cons, hws a (by simp),
      ih (fun c hc => hws c (by simp [hc]))]

theorem matchAfterHeading_capture {bs : List (List Char)} (ws B tail : List Char)
    (hws : ∀ c ∈ ws, isSectChar c = true)
    (hB0 : B ≠ [])
    (hBh : (B.head?.all fun c => !isSectChar c) = true)
    (hBla : ∀ i, i < B.length → laAt bs (B.drop i ++ tail) = false)
    (ht : laAt bs tail = true) :
    matchAfterHeading bs (ws ++ (B ++ tail)) = some B := by
  have hhead : ((B ++ tail).head?.all fun c => !isSectChar c) = true := by
    cases B with
    | nil => exact absurd rfl hB0
    | cons b B2 => simpa using hBh
  have htw : (ws ++ (B ++ tail)).takeWhile isSectChar = ws :=
    takeWhile_append_all (B ++ tail) hws hhead
  have hdrop : (ws ++ (B ++ tail)).drop ws.length = B ++ tail := List.drop_left ws (B ++ tail)
  rw [matchAfterHeading, htw, hdrop, lazyCapture_append B hBla ht]

theorem tryHeadingsAt_none (hs bs : List (List Char)) (s : List Char)
    (h : ∀ w ∈ hs, ciStrip w s = none) : tryHeadingsAt hs bs s = none := by
  induction hs with
  | nil => rfl
  | cons w hs ih =>
    simp [tryHeadingsAt, h w (by simp), ih (fun w hw => h w (by simp [hw]))]

theorem tryHeadingsAt_capture (pre post : List (List Char)) (h : List Char)
    (bs : List (List Char)) (s cap : List Char)
    (hpre : ∀ w ∈ pre, ciStrip w s = none)
    (hh : (ciStrip h s).bind (matchAfterHeading bs) = some cap) :
    tryHeadingsAt (pre ++ h :: post) bs s = some cap := by
  induction pre with
  | nil => simp [tryHeadingsAt, hh]
  | cons w pre ih =>
    simp [tryHeadingsAt, hpre w (by simp), ih (fun w hw => hpre w (by simp [hw]))]

theorem sectionSearch_skip (hs bs : List (List Char)) (p s : List Char)
    (hp : ∀ i, i < p.length → tryHeadingsAt hs bs (p.drop i ++ s) = none) :
    sectionSearch hs bs (p ++ s) = sectionSearch hs bs s := by
  induction p with
  | nil => rfl
  | cons c p ih =>
    have h0 : tryHeadingsAt hs bs (c :: (p ++ s)) = none := by
      simpa using hp 0 (by simp)
    have ih' := ih (fun i hi => by
      simpa [List.drop_succ_cons] using hp (i + 1) (by simpa using Nat.succ_lt_succ hi))
    simp [sectionSearch, h0, ih']

theorem sectionSearch_at_head (hs bs : List (List Char)) (s cap : List Char)
    (h : tryHeadingsAt hs bs s = some cap) : sectionSearch hs bs s = some cap := by
  cases s with
  | nil => simpa [sectionSearch] using h
  | cons c t => simp [sectionSearch, h]

theorem ciStrip_self_append (w s : List Char) : ciStrip w (w ++ s) = some s := by
  induction w with
  | nil => rfl
  | cons a w ih => simp [ciStrip, lowerEq, ih]

theorem ciStrip_ne_first {a b : Char} (w s : List Char) (h : lowerEq a b = false) :
    ciStrip (a :: w) (b :: s) = none := by
  simp [ciStrip, h]

/-- Master capture lemma for a section regex: on a subject consisting of
a heading-free prefix, one heading alternative, a run of `[:\s]`
characters, a body that triggers the lookahead nowhere, and a tail that
does trigger it, the search captures exactly the body. -/
theorem sectionSearch_capture (pre post : List (List Char)) (h : List Char)
    (bs : List (List Char)) (p ws B tail : List Char)
    (hp : ∀ i, i < p.length → ∀ w ∈ pre ++ h :: post,
        ciStrip w (p.drop i ++ (h ++ (ws ++ (B ++ tail)))) = none)
    (hpre : ∀ w ∈ pre, ciStrip w (h ++ (ws ++ (B ++ tail))) = none)
    (hws : ∀ c ∈ ws, isSectChar c = true)
    (hB0 : B ≠ [])
    (hBh : (B.head?.all fun c => !isSectChar c) = true)
    (hBla : ∀ i, i < B.length → laAt bs (B.drop i ++ tail) = false)
    (ht : laAt bs tail = true) :
    sectionSearch (pre ++ h :: post) bs (p ++ (h ++ (ws ++ (B ++ tail)))) = some B := by
  rw [sectionSearch_skip _ _ p _ (fun i hi => tryHeadingsAt_none _ _ _ (hp i hi))]
  apply sectionSearch_at_head
  apply tryHeadingsAt_capture _ _ _ _ _ _ hpre
  rw [ciStrip_self_append]
  simpa using matchAfterHeading_capture ws B tail hws hB0 hBh hBla ht

theorem dropWhile_head_all (p : Char → Bool) (l : List Char) :
    ((l.dropWhile p).head?.all fun c => !p c) = true := by
  induction l with
  | nil => rfl
  | cons c t ih =>
    by_cases hc : p c = true
    · simpa [List.dropWhile_cons, hc] using ih
    · simp only [Bool.not_eq_true] at hc
      simp [List.dropWhile_cons, hc]

theorem dropWhile_eq_self_of_head (p : Char → Bool) (l : List Char)
    (h : (l.head?.all fun c => !p c) = true) : l.dropWhile p = l := by
  cases l with
  | nil => rfl
  | cons c t =>
    simp only [List.head?_cons, Option.all_some, Bool.not_eq_true'] at h
    simp [List.dropWhile_cons, h]

theorem jsTrimList_idem (l : List Char) : jsTrimList (jsTrimList l) = jsTrimList l := by
  unfold jsTrimList
  cases hB : (l.dropWhile isJsSpace).reverse.dropWhile isJsSpace with
  | nil => simp [hB]
  | cons b B2 =>
    have hsplit : l.dropWhile isJsSpace =
        (b :: B2).reverse ++ ((l.dropWhile isJsSpace).reverse.takeWhile isJsSpace).reverse := by
      have h1 : (l.dropWhile isJsSpace).reverse.takeWhile isJsSpace ++ (b :: B2) =
          (l.dropWhile isJsSpace).reverse := by
        rw [← hB]; exact List.takeWhile_append_dropWhile isJsSpace _
      calc l.dropWhile isJsSpace
          = (l.dropWhile isJsSpace).reverse.reverse := (List.reverse_reverse _).symm
        _ = ((l.dropWhile isJsSpace).reverse.takeWhile isJsSpace ++ (b :: B2)).reverse := by
            rw [h1]
        _ = (b :: B2).reverse ++ ((l.dropWhile isJsSpace).reverse.takeWhile isJsSpace).reverse := by
            rw [List.reverse_append]
    have hhead : (((b :: B2).reverse).head?.all fun c => !isJsSpace c) = true := by
      have hall := dropWhile_head_all isJsSpace l
      rw [hsplit] at hall
      cases hr : (b :: B2).reverse with
      | nil => exact absurd hr (by simp)
      | cons x xs => rw [hr] at hall; simpa using hall
    have step1 : ((b :: B2).reverse).dropWhile isJsSpace = (b :: B2).reverse :=
      dropWhile_eq_self_of_head _ _ hhead
    have hheadB : ((b :: B2).head?.all fun c => !isJsSpace c) = true := by
      have hall := dropWhile_head_all isJsSpace (l.dropWhile isJsSpace).reverse
      rw [hB] at hall; exact hall
    have step2 : (b :: B2).dropWhile isJsSpace = b :: B2 :=
      dropWhile_eq_self_of_head _ _ hheadB
    rw [step1, List.reverse_reverse, step2]

theorem splitOnPred_congr {p q : Char → Bool} (l : List Char)
    (h : ∀ c ∈ l, p c = q c) : splitOnPred p l = splitOnPred q l := by
  induction l with
  | nil => rfl
  | cons c t ih =>
    have ih' := ih (fun c hc => h c (by simp [hc]))
    by_cases hc : p c = true
    · have hq : q c = true := by rw [← h c (by simp)]; exact hc
      simp [splitOnPred, hc, hq, ih']
    · have hq : q c = false := by rw [← h c (by simp)]; simpa using hc
      simp only [Bool.not_eq_true] at hc
      simp [splitOnPred, hc, hq, ih']

theorem map_mk_filter_pos (ys : List (List Char)) :
    ((ys.filter fun t => decide (0 < t.length)).map fun t => String.mk t) =
    ((ys.map fun t => String.mk t).filter fun s => decide (s ≠ "")) := by
  induction ys with
  | nil => rfl
  | cons y ys ih =>
    by_cases hy : 0 < y.length
    · have hne : String.mk y ≠ "" := by
        intro hcon
        have hdata : y = [] := congrArg String.data hcon
        exact absurd hdata (List.ne_nil_of_length_pos hy)
      simp [List.filter_cons, List.map_cons, hy, hne, ih]
    · have hnil : y = [] := by
        cases y with
        | nil => rfl
        | cons a t => exact absurd (by simp) hy
      subst hnil
      simp [List.filter_cons, List.map_cons, ih]

theorem processSkills_comma (cap : List Char)
    (hcap : ∀ c ∈ cap, isSkillSep c = true → c = ',') :
    processSkills cap = commaTokens (String.mk cap) := by
  have hcongr : splitOnPred isSkillSep cap = splitOnPred (fun c => c == ',') cap := by
    apply splitOnPred_congr
    intro c hc
    by_cases hcom : c = ','
    · subst hcom; rfl
    · have h1 : isSkillSep c = false := by
        cases h2 : isSkillSep c with
        | false => rfl
        | true => exact absurd (hcap c hc h2) hcom
      have h2 : (c == ',') = false := by simpa using hcom
      rw [h1, h2]
  rw [processSkills, hcongr, map_mk_filter_pos, commaTokens]
  rw [List.map_map]
  rfl

theorem drop_head_mem {l : List Char} {i : Nat} (h : i < l.length) :
    ∃ c l2, l.drop i = c :: l2 ∧ c ∈ l := by
  refine ⟨l[i], l.drop (i + 1), List.drop_eq_getElem_cons h, List.getElem_mem h⟩

/-- C1 counterexample: a resume consisting of a `Skills:` heading
followed by a comma-separated list but no further line yields no skills
at all — the section regex lookahead requires a literal newline, so the
span is not captured and the output differs from the trimmed tokens of
the list. -/
theorem skills_comma_list_cex :
    (structureResume "Skills: Go, Rust").skills = [] ∧
    commaTokens "Go, Rust" = ["Go", "Rust"] ∧
    ([] : List String) ≠ ["Go", "Rust"] := by
  refine ⟨by decide, by decide, by decide⟩

/-- C1 (amended): for every resume text in which a `Skills:` heading is
recognized — no earlier heading-word occurrence, and the comma-separated
list (free of the other separator characters) is terminated by a newline
whose line triggers the boundary lookahead (a recognized boundary
heading, or only whitespace to the end of the text) — the skills output
is exactly the trimmed, non-empty comma tokens of the list, in order. -/
theorem skills_comma_list (p ws L rest : String)
    (hp : ∀ i, i < p.data.length → ∀ w ∈ skillsHeads.map String.data,
        ciStrip w (p.data.drop i ++ ("Skills:" ++ ws ++ L ++ "\n" ++ rest).data) = none)
    (hws : ∀ c ∈ ws.data, isSectChar c = true)
    (hL0 : L ≠ "")
    (hLh : (L.data.head?.all fun c => !isSectChar c) = true)
    (hLc : ∀ c ∈ L.data, isSkillSep c = true → c = ',')
    (hrest : laBody (skillsBounds.map String.data) rest.data = true) :
    (structureResume (p ++ "Skills:" ++ ws ++ L ++ "\n" ++ rest)).skills =
      commaTokens L := by
  have hS : ("Skills:" ++ ws ++ L ++ "\n" ++ rest).data =
      "Skills".data ++ ((':' :: ws.data) ++ (L.data ++ ('\n' :: rest.data))) := by
    simp only [String.data_append, List.append_assoc]
    rfl
  have hT : (p ++ "Skills:" ++ ws ++ L ++ "\n" ++ rest).data =
      p.data ++ ("Skills".data ++ ((':' :: ws.data) ++ (L.data ++ ('\n' :: rest.data)))) := by
    simp only [String.data_append, List.append_assoc]
    rfl
  have hB0 : L.data ≠ [] := fun hd => hL0 (String.ext_iff.mpr hd)
  have hmatch : sectionMatch skillsHeads skillsBounds
      (p ++ "Skills:" ++ ws ++ L ++ "\n" ++ rest) = some L.data := by
    rw [sectionMatch, hT]
    have e : skillsHeads.map String.data =
        [] ++ "Skills".data ::
          ["Expertise".data, "Competencies".data, "Technical Skills".data] := rfl
    rw [e]
    apply sectionSearch_capture
    · intro i hi w hw
      have h1 := hp i hi w (by rw [e]; exact hw)
      rw [hS] at h1
      exact h1
    · intro w hw
      exact absurd hw (List.not_mem_nil w)
    · intro c hc
      rcases List.mem_cons.mp hc with hcol | hws2
      · subst hcol; decide
      · exact hws c hws2
    · exact hB0
    · exact hLh
    · intro i hi
      obtain ⟨c, l2, hdrop, hmem⟩ := drop_head_mem hi
      rw [hdrop, List.cons_append]
      apply laAt_cons_ne
      intro hcc
      subst hcc
      exact absurd (hLc '\n' hmem (by decide)) (by decide)
    · rw [laAt_newline]
      exact hrest
  have hE : (L.data).isEmpty = false := by
    cases hLd : L.data with
    | nil => exact absurd hLd hB0
    | cons a t => rfl
  show extractSkills (p ++ "Skills:" ++ ws ++ L ++ "\n" ++ rest) = commaTokens L
  rw [extractSkills, hmatch]
  simp only [hE, Bool.false_eq_true, if_false]
  exact processSkills_comma L.data hLc

/-- Witness for C1 at the concrete scenario resume. -/
theorem skills_comma_list_wit :
    (structureResume
        ("" ++ "Skills:" ++ " " ++ "Go, Rust, C++" ++ "\n" ++
          "Experience:\n2020 Engineer at Foo")).skills = ["Go", "Rust", "C++"] := by
  have h := skills_comma_list "" " " "Go, Rust, C++" "Experience:\n2020 Engineer at Foo"
    (by intro i hi; simp at hi)
    (by decide) (by decide) (by decide) (by decide) (by decide)
  rw [h]
  decide

theorem processEntries_mem {cap : List Char} {e : String}
    (he : e ∈ processEntries cap) : 10 < e.length ∧ jsTrim e = e := by
  simp only [processEntries, List.mem_map, List.mem_filter] at he
  obtain ⟨t, ⟨ht, hlen⟩, rfl⟩ := he
  obtain ⟨u, hu, rfl⟩ := ht
  constructor
  · exact of_decide_eq_true hlen
  · show jsTrim (String.mk (jsTrimList u)) = String.mk (jsTrimList u)
    rw [jsTrim, show (String.mk (jsTrimList u)).data = jsTrimList u from rfl,
      jsTrimList_idem]

/-- C5: every entry of the structurer's experience or education output
is already trimmed and longer than 10 characters — equivalently, every
candidate entry whose trimmed form is 10 characters or shorter has been
discarded, and only entries longer than 10 characters after trimming
are kept. -/
theorem entry_min_length (t e : String)
    (he : e ∈ (structureResume t).experience ∨ e ∈ (structureResume t).education) :
    10 < e.length ∧ jsTrim e = e := by
  have key : ∀ (hs bs : List String),
      e ∈ (match sectionMatch hs bs t with
        | some cap => if cap.isEmpty then [] else processEntries cap
        | none => []) → 10 < e.length ∧ jsTrim e = e := by
    intro hs bs hmem
    split at hmem
    · split at hmem
      · exact absurd hmem (List.not_mem_nil e)
      · exact processEntries_mem hmem
    · exact absurd hmem (List.not_mem_nil e)
  rcases he with he | he
  · exact key expHeads expBounds he
  · exact key eduHeads eduBounds he

/-- Witness for C5: a concrete kept experience entry is trimmed and
longer than 10 characters. -/
theorem entry_min_length_wit :
    10 < ("2020 Engineer at FooCorp" : String).length ∧
    jsTrim "2020 Engineer at FooCorp" = "2020 Engineer at FooCorp" :=
  entry_min_length "Experience: 2020 Engineer at FooCorp\n" "2020 Engineer at FooCorp"
    (Or.inl (by decide))

theorem ciStrip_none_of_head_ne (w s : List Char) (a b : Char)
    (hw : w.head? = some a) (hs : s.head? = some b) (h : lowerEq a b = false) :
    ciStrip w s = none := by
  cases w with
  | nil => simp at hw
  | cons x w2 =>
    cases s with
    | nil => rfl
    | cons y s2 =>
      simp only [List.head?_cons, Option.some.injEq] at hw hs
      subst hw
      subst hs
      exact ciStrip_ne_first _ _ h

/-- Capture lemma for the summary regex, for any position of the matched
heading alternative inside the alternation. -/
theorem summary_capture_core (pre post : List (List Char)) (H : String)
    (hH : summaryHeads.map String.data = pre ++ H.data :: post)
    (p ws B rest : String)
    (hp : ∀ i, i < p.data.length → ∀ w ∈ summaryHeads.map String.data,
        ciStrip w (p.data.drop i ++ (H ++ ws ++ B ++ "\n" ++ rest).data) = none)
    (hpre : ∀ w ∈ pre, ciStrip w ((H ++ ws ++ B ++ "\n" ++ rest).data) = none)
    (hws : ∀ c ∈ ws.data, isSectChar c = true)
    (hB0 : B ≠ "")
    (hBh : (B.data.head?.all fun c => !isSectChar c) = true)
    (hBla : ∀ i, i < B.data.length →
        laAt (summaryBounds.map String.data) (B.data.drop i ++ '\n' :: rest.data) = false)
    (hrest : laBody (summaryBounds.map String.data) rest.data = true) :
    (structureResume (p ++ H ++ ws ++ B ++ "\n" ++ rest)).summary = jsTrim B := by
  have hS : (H ++ ws ++ B ++ "\n" ++ rest).data =
      H.data ++ (ws.data ++ (B.data ++ ('\n' :: rest.data))) := by
    simp only [String.data_append, List.append_assoc]
    rfl
  have hT : (p ++ H ++ ws ++ B ++ "\n" ++ rest).data =
      p.data ++ (H.data ++ (ws.data ++ (B.data ++ ('\n' :: rest.data)))) := by
    simp only [String.data_append, List.append_assoc]
    rfl
  have hB0d : B.data ≠ [] := fun hd => hB0 (String.ext_iff.mpr hd)
  have hmatch : sectionMatch summaryHeads summaryBounds
      (p ++ H ++ ws ++ B ++ "\n" ++ rest) = some B.data := by
    rw [sectionMatch, hT, hH]
    apply sectionSearch_capture
    · intro i hi w hw
      have h1 := hp i hi w (by rw [hH]; exact hw)
      rw [hS] at h1
      exact h1
    · intro w hw
      have h1 := hpre w hw
      rw [hS] at h1
      exact h1
    · exact hws
    · exact hB0d
    · exact hBh
    · exact hBla
    · rw [laAt_newline]
      exact hrest
  have hE : (B.data).isEmpty = false := by
    cases hBd : B.data with
    | nil => exact absurd hBd hB0d
    | cons a t => rfl
  show extractSummary (p ++ H ++ ws ++ B ++ "\n" ++ rest) = jsTrim B
  rw [extractSummary, hmatch]
  simp only [hE, Bool.false_eq_true, if_false]
  rfl

/-- C6 counterexample: a resume consisting of a `Summary:` heading whose
body runs to the end of the text without a final newline yields an empty
summary — the regex lookahead requires a literal newline even in its
end-of-text alternative — instead of the trimmed captured text. -/
theorem summary_capture_cex :
    (structureResume "Summary: I am great").summary = "" ∧
    jsTrim "I am great" = "I am great" ∧
    ("I am great" : String) ≠ "" := by
  refine ⟨by decide, by decide, by decide⟩

/-- C6 (amended): for every resume text in which a heading among
Summary/Profile/About/Objective is recognized (no earlier occurrence of
a heading word) and whose body is terminated by a newline that triggers
the boundary lookahead — the next recognized heading at the start of a
later line, or a newline followed by only whitespace to the end of the
text — the summary equals the trimmed captured body. A summary section
not terminated by such a newline boundary is not captured. -/
theorem summary_capture (H p ws B rest : String)
    (hH : H ∈ summaryHeads)
    (hp : ∀ i, i < p.data.length → ∀ w ∈ summaryHeads.map String.data,
        ciStrip w (p.data.drop i ++ (H ++ ws ++ B ++ "\n" ++ rest).data) = none)
    (hws : ∀ c ∈ ws.data, isSectChar c = true)
    (hB0 : B ≠ "")
    (hBh : (B.data.head?.all fun c => !isSectChar c) = true)
    (hBla : ∀ i, i < B.data.length →
        laAt (summaryBounds.map String.data) (B.data.drop i ++ '\n' :: rest.data) = false)
    (hrest : laBody (summaryBounds.map String.data) rest.data = true) :
    (structureResume (p ++ H ++ ws ++ B ++ "\n" ++ rest)).summary = jsTrim B := by
  simp only [summaryHeads, List.mem_cons, List.not_mem_nil, or_false] at hH
  rcases hH with rfl | rfl | rfl | rfl
  · exact summary_capture_core [] ["Profile".data, "About".data, "Objective".data]
      "Summary" rfl p ws B rest hp
      (fun w hw => absurd hw (List.not_mem_nil w))
      hws hB0 hBh hBla hrest
  · refine summary_capture_core ["Summary".data] ["About".data, "Objective".data]
      "Profile" rfl p ws B rest hp ?_ hws hB0 hBh hBla hrest
    intro w hw
    rw [List.mem_singleton.mp hw]
    exact ciStrip_none_of_head_ne _ _ 'S' 'P' rfl rfl (by decide)
  · refine summary_capture_core ["Summary".data, "Profile".data] ["Objective".data]
      "About" rfl p ws B rest hp ?_ hws hB0 hBh hBla hrest
    intro w hw
    rcases List.mem_cons.mp hw with rfl | hw2
    · exact ciStrip_none_of_head_ne _ _ 'S' 'A' rfl rfl (by decide)
    · rw [List.mem_singleton.mp hw2]
      exact ciStrip_none_of_head_ne _ _ 'P' 'A' rfl rfl (by decide)
  · refine summary_capture_core ["Summary".data, "Profile".data, "About".data] []
      "Objective" rfl p ws B rest hp ?_ hws hB0 hBh hBla hrest
    intro w hw
    rcases List.mem_cons.mp hw with rfl | hw2
    · exact ciStrip_none_of_head_ne _ _ 'S' 'O' rfl rfl (by decide)
    rcases List.mem_cons.mp hw2 with rfl | hw3
    · exact ciStrip_none_of_head_ne _ _ 'P' 'O' rfl rfl (by decide)
    rw [List.mem_singleton.mp hw3]
    exact ciStrip_none_of_head_ne _ _ 'A' 'O' rfl rfl (by decide)

/-- Witness for C6 at a concrete two-section resume. -/
theorem summary_capture_wit :
    (structureResume
        ("" ++ "Summary" ++ ": " ++ "I am great" ++ "\n" ++ "Skills: Go\n")).summary =
      "I am great" := by
  have h := summary_capture "Summary" "" ": " "I am great" "Skills: Go\n"
    (by decide)
    (by intro i hi; simp at hi)
    (by decide) (by decide) (by decide)
    (by decide)
    (by decide)
  rw [h]
  decide
